import Mathlib

/-!
Shallow embedding of `src/hooks/copy_source_markdown.py`, a two-function
mkdocs build hook:

* `on_page_content` prepends a fixed "view markdown source" anchor element
  to a rendered page's HTML, whose `href` depends only on the final
  component of the page's source path;
* `on_post_build` walks the configured source-documents directory
  (`docs_dir`), and for every file matching `*.md` copies it, via
  `mkdir(parents=True, exist_ok=True)` followed by `shutil.copy2`, to the
  same relative path under the configured output directory (`site_dir`).

Paths are modelled as lists of POSIX components; file contents as lists of
bytes.  The filesystem is a state carrying an association list of files
(first match wins, writes shadow by consing in front) and a list of
existing directories.  The copier is expressed first over an abstract,
fallible filesystem interface (`FsOps`, operations return `Except`) so
that error propagation can be stated, and then instantiated with the
concrete in-memory filesystem.  `rglob` is modelled as a snapshot of the
matching files, enumerated in the order of the association list; the OS
directory-walk order is unspecified in the source, so the list order
stands for one admissible enumeration order.
-/

namespace CopySourceMarkdown

/-- Split a string on `/` into raw components (Python `str.split("/")`
restricted to the separator used by `pathlib` on POSIX). -/
def splitSlash : List Char → List Char → List String
  | [], acc => [String.mk acc.reverse]
  | c :: rest, acc =>
    if c = '/' then String.mk acc.reverse :: splitSlash rest []
    else splitSlash rest (c :: acc)

/-- `pathlib.Path(s).name`: the last path component, after `pathlib`
normalisation drops empty components and `.` components. -/
def pathName (s : String) : String :=
  Option.getD
    (List.getLast? ((splitSlash s.data []).filter (fun c => c != "" && c != ".")))
    ""

/-- The inline SVG icon embedded in the injected fragment. -/
def svg_icon : String :=
  "<svg xmlns=\"http://www.w3.org/2000/svg\" viewBox=\"0 0 24 24\">" ++
  "<path d=\"M14 2H6a2 2 0 0 0-2 2v16a2 2 0 0 0 2 2h12a2 2 0 0 0 " ++
  "2-2V8l-6-6m4 18H6V4h7v5h5v11M13 9V3.5L18.5 9H13Z\"/></svg>"

/-- The link target computed by `on_page_content`: the literal
`"index.md"` for an index document, `"../" + name` otherwise. -/
def md_url (srcPath : String) : String :=
  if pathName srcPath = "index.md" then "index.md" else "../" ++ pathName srcPath

/-- The anchor fragment (`source_link` in the source) injected before the
page HTML. -/
def source_link (srcPath : String) : String :=
  "<div class=\"md-source-file\">" ++
  "<a href=\"" ++ md_url srcPath ++ "\" title=\"View markdown source\" class=\"md-icon\">" ++
  svg_icon ++ "</a></div>\n"

/-- `on_page_content(html, page, ...)`: returns `source_link + html`.
Only `page.file.src_path` is consulted, so the page argument is modelled
by that path string. -/
def on_page_content (html : String) (srcPath : String) : String :=
  source_link srcPath ++ html

/-! ### Filesystem model for `on_post_build` -/

/-- A filesystem path, as a list of components (absolute, from the
filesystem root). -/
abbrev Path := List String

/-- File contents, as a list of bytes. -/
abbrev Bytes := List Nat

/-- In-memory filesystem: files as an association list from path to
contents (first match wins; writing shadows by consing in front), plus
the set of existing directories. -/
structure FSState where
  files : List (Path × Bytes)
  dirs : List Path
  deriving DecidableEq

/-- First-match lookup in the file association list. -/
def lookupP : List (Path × Bytes) → Path → Option Bytes
  | [], _ => none
  | e :: rest, p => if e.1 = p then some e.2 else lookupP rest p

/-- `root` is a path-prefix of `p` (`p` lies at or under `root`). -/
def isUnder (root p : Path) : Prop := p.take root.length = root

instance (root p : Path) : Decidable (isUnder root p) :=
  inferInstanceAs (Decidable (p.take root.length = root))

/-- The `*.md` glob test performed by `rglob("*.md")`: the file name (the
last component) ends with `.md`. -/
def isMd (p : Path) : Bool := List.isSuffixOf ".md".data (p.getLastD "").data

/-- `site_dir / md_file.relative_to(docs_dir)`: the destination path of a
copied file. -/
def destOf (docs site p : Path) : Path := site ++ p.drop docs.length

/-- All prefixes of a path, shortest first (the directory and every one
of its ancestors, as created by `mkdir(parents=True)`). -/
def prefixesUpTo (p : Path) : List Path :=
  (List.range (p.length + 1)).map (fun i => p.take i)

/-- `d.mkdir(parents=True, exist_ok=True)`: the directory and all its
ancestors exist afterwards; existing directories are left alone. -/
def mkdirParents (st : FSState) (d : Path) : FSState :=
  { st with dirs := prefixesUpTo d ++ st.dirs }

/-- Errors the underlying platform can signal during the copy. -/
inductive FsErr where
  | fileNotFound : Path → FsErr
  | sameFile : Path → FsErr
  deriving DecidableEq

/-- Abstract fallible filesystem interface: the two primitives the
copier invokes per file (`Path.mkdir` and `shutil.copy2`). -/
structure FsOps (ε σ : Type) where
  mkdirP : σ → Path → Except ε σ
  copy2 : σ → Path → Path → Except ε σ

/-- One iteration of the copy loop: make the destination's parent
directories, then copy.  Any error aborts the step. -/
def copyOneE {ε σ : Type} (ops : FsOps ε σ) (docs site : Path) (st : σ) (p : Path) :
    Except ε σ :=
  match ops.mkdirP st ((destOf docs site p).dropLast) with
  | .error e => .error e
  | .ok st1 => ops.copy2 st1 p (destOf docs site p)

/-- The copy loop of `on_post_build` over an enumeration of source
files: processes files in order, stopping at the first error. -/
def postBuildE {ε σ : Type} (ops : FsOps ε σ) (docs site : Path) :
    List Path → σ → Except ε σ
  | [], st => .ok st
  | p :: rest, st =>
    match copyOneE ops docs site st p with
    | .error e => .error e
    | .ok st1 => postBuildE ops docs site rest st1

/-- Concrete `mkdir(parents=True, exist_ok=True)`: total on the
in-memory filesystem. -/
def fsMkdirP (st : FSState) (d : Path) : Except FsErr FSState :=
  .ok (mkdirParents st d)

/-- Concrete `shutil.copy2(src, dest)`: fails if source and destination
are the same file or the source does not exist, otherwise overwrites the
destination with the source bytes (metadata is carried with the bytes). -/
def fsCopy2 (st : FSState) (src dst : Path) : Except FsErr FSState :=
  if src = dst then .error (.sameFile src)
  else
    match lookupP st.files src with
    | none => .error (.fileNotFound src)
    | some c => .ok { st with files := (dst, c) :: st.files }

/-- The concrete filesystem operations. -/
def fsOps : FsOps FsErr FSState := ⟨fsMkdirP, fsCopy2⟩

/-- `docs_dir.rglob("*.md")`, as a snapshot: every file strictly under
`docs` whose name ends in `.md`, in association-list order. -/
def mdFiles (st : FSState) (docs : Path) : List Path :=
  (st.files.map Prod.fst).filter
    (fun p => decide (isUnder docs p) && decide (docs.length < p.length) && isMd p)

/-- `on_post_build(config)`: copy every `*.md` file under `docs_dir` to
the mirrored path under `site_dir`.  (The closing `print` writes a fixed
message to stdout and does not touch the filesystem.) -/
def on_post_build (docs site : Path) (st : FSState) : Except FsErr FSState :=
  postBuildE fsOps docs site (mdFiles st docs) st

/-! ### Properties of the link injector -/

/-- C2: for every page whose source path's file name is the index
document `index.md`, the link target injected by `on_page_content`
equals the literal `"index.md"`. -/
theorem c2_index_href (src : String) (h : pathName src = "index.md") :
    md_url src = "index.md" := by
  simp [md_url, h]

/-- Witness for C2 at the concrete source path `"docs/index.md"`. -/
theorem c2_index_href_concrete :
    pathName "docs/index.md" = "index.md" ∧ md_url "docs/index.md" = "index.md" :=
  ⟨by decide, c2_index_href "docs/index.md" (by decide)⟩

/-- C3: for every page whose source path's file name is not the index
document, the injected link target is `"../"` followed by the file's own
name. -/
theorem c3_nonindex_href (src : String) (h : pathName src ≠ "index.md") :
    md_url src = "../" ++ pathName src := by
  simp [md_url, h]

/-- Witness for C3 at the concrete source path `"guide/usage.md"`. -/
theorem c3_nonindex_href_concrete :
    pathName "guide/usage.md" ≠ "index.md" ∧
      md_url "guide/usage.md" = "../" ++ pathName "guide/usage.md" :=
  ⟨by decide, c3_nonindex_href "guide/usage.md" (by decide)⟩

/-- C4: for every input HTML string and source path, the returned string
is exactly the injected link fragment concatenated with the original
HTML: it begins with the fragment, and dropping the fragment's
characters leaves the input HTML unmodified. -/
theorem c4_output_is_link_then_html (html src : String) :
    on_page_content html src = source_link src ++ html ∧
      (on_page_content html src).data.drop (source_link src).data.length = html.data := by
  refine ⟨rfl, ?_⟩
  show ((source_link src) ++ html).data.drop (source_link src).data.length = html.data
  rw [String.data_append]
  exact List.drop_left _ _

/-- C8: `on_page_content` is total and pure: for every source path (any
string) and every HTML string it returns a value — the link fragment
followed by the HTML — and its only effect is that return value. -/
theorem c8_total_injection (html src : String) :
    ∃ out : String, on_page_content html src = out ∧
      out.length = (source_link src).length + html.length :=
  ⟨source_link src ++ html, rfl, String.length_append _ _⟩

/-- C10: the output of `on_page_content` depends only on the input HTML
and the final component of the source path; in particular a page at
`sub/index.md` receives the link target `"index.md"`, not a path
relative to its own directory. -/
theorem c10_depends_only_on_name :
    (∀ s₁ s₂ html : String, pathName s₁ = pathName s₂ →
        on_page_content html s₁ = on_page_content html s₂) ∧
      md_url "sub/index.md" = "index.md" := by
  constructor
  · intro s₁ s₂ html h
    simp [on_page_content, source_link, md_url, h]
  · decide

/-- Witness for C10: two source paths in different directories with the
same file name receive identical output. -/
theorem c10_depends_only_on_name_concrete :
    on_page_content "<p>x</p>" "a/u.md" = on_page_content "<p>x</p>" "b/u.md" :=
  c10_depends_only_on_name.1 "a/u.md" "b/u.md" "<p>x</p>" (by decide)

/-! ### Path-order lemmas -/

theorem isUnder_length_le {r p : Path} (h : isUnder r p) : r.length ≤ p.length := by
  have hl := congrArg List.length h
  rw [List.length_take] at hl
  exact inf_eq_left.mp hl

theorem isUnder_of_append (r x : Path) : isUnder r (r ++ x) := by
  simp [isUnder, List.take_left]

theorem isUnder_eq_append {r p : Path} (h : isUnder r p) :
    p = r ++ p.drop r.length := by
  conv_lhs => rw [← List.take_append_drop r.length p]
  rw [h]

theorem isUnder_of_under_of_le {a b p : Path} (ha : isUnder a p) (hb : isUnder b p)
    (hl : a.length ≤ b.length) : isUnder a b := by
  rw [isUnder] at *
  rw [← hb, List.take_take, inf_eq_left.mpr hl, ha]

theorem under_total {a b p : Path} (ha : isUnder a p) (hb : isUnder b p) :
    isUnder a b ∨ isUnder b a := by
  rcases Nat.le_total a.length b.length with h | h
  · exact Or.inl (isUnder_of_under_of_le ha hb h)
  · exact Or.inr (isUnder_of_under_of_le hb ha h)

theorem isUnder_site_destOf (docs site p : Path) : isUnder site (destOf docs site p) :=
  isUnder_of_append site (p.drop docs.length)

theorem destOf_inj {docs site p r : Path} (hp : isUnder docs p) (hr : isUnder docs r)
    (he : destOf docs site p = destOf docs site r) : p = r := by
  have hd : p.drop docs.length = r.drop docs.length := List.append_cancel_left he
  rw [isUnder_eq_append hp, isUnder_eq_append hr, hd]

theorem not_under_both {docs site q : Path} (hds : ¬ isUnder docs site)
    (hsd : ¬ isUnder site docs) (h : isUnder docs q) : ¬ isUnder site q := by
  intro hs
  rcases under_total h hs with h1 | h1
  · exact hds h1
  · exact hsd h1

theorem under_docs_ne_dest {docs site : Path} (hds : ¬ isUnder docs site)
    (hsd : ¬ isUnder site docs) {q : Path} (h : isUnder docs q) (p : Path) :
    q ≠ destOf docs site p := by
  intro he
  exact not_under_both hds hsd h (he ▸ isUnder_site_destOf docs site p)

theorem under_of_under_dropLast {d p : Path} (h : isUnder d p.dropLast) :
    isUnder d p := by
  have hle : d.length ≤ p.length - 1 := by
    have h1 := isUnder_length_le h
    rw [List.dropLast_eq_take, List.length_take] at h1
    exact le_trans h1 inf_le_left
  rw [List.dropLast_eq_take, isUnder, List.take_take] at h
  rw [inf_eq_left.mpr hle] at h
  exact h

theorem mem_prefixesUpTo {d q : Path} : d ∈ prefixesUpTo q ↔ isUnder d q := by
  unfold prefixesUpTo
  rw [List.mem_map]
  constructor
  · rintro ⟨i, hi, rfl⟩
    rw [List.mem_range] at hi
    have hi2 : i ≤ q.length := by omega
    rw [isUnder, List.length_take, inf_eq_left.mpr hi2]
  · intro h
    refine ⟨d.length, ?_, h⟩
    rw [List.mem_range]
    exact Nat.lt_succ_of_le (isUnder_length_le h)

/-! ### Lookup lemmas -/

theorem lookupP_cons (k : Path) (v : Bytes) (fs : List (Path × Bytes)) (p : Path) :
    lookupP ((k, v) :: fs) p = if k = p then some v else lookupP fs p := rfl

theorem lookupP_isSome_of_mem {fs : List (Path × Bytes)} {p : Path} {c : Bytes}
    (h : (p, c) ∈ fs) : ∃ v, lookupP fs p = some v := by
  induction fs with
  | nil => cases h
  | cons e rest ih =>
    by_cases he : e.1 = p
    · exact ⟨e.2, by simp [lookupP, he]⟩
    · rcases List.mem_cons.mp h with h1 | h1
      · rw [← h1] at he
        exact absurd rfl he
      · obtain ⟨v, hv⟩ := ih h1
        exact ⟨v, by simp [lookupP, he, hv]⟩

/-! ### Structural lemmas for the copy loop -/

theorem copyOne_ok_elim {docs site : Path} {st st2 : FSState} {a : Path}
    (h : copyOneE fsOps docs site st a = .ok st2) :
    ∃ c, lookupP st.files a = some c ∧ a ≠ destOf docs site a ∧
      st2.files = (destOf docs site a, c) :: st.files ∧
      st2.dirs = prefixesUpTo ((destOf docs site a).dropLast) ++ st.dirs := by
  simp only [copyOneE, fsOps, fsMkdirP, fsCopy2, mkdirParents] at h
  split at h
  · exact Except.noConfusion h
  next hne =>
    split at h
    next heq => exact Except.noConfusion h
    next c heq =>
      have h2 := Except.ok.inj h
      refine ⟨c, heq, hne, ?_, ?_⟩
      · rw [← h2]
      · rw [← h2]

theorem copyOne_ok_intro {docs site : Path} {st : FSState} {a : Path} {c : Bytes}
    (hne : a ≠ destOf docs site a) (hl : lookupP st.files a = some c) :
    copyOneE fsOps docs site st a =
      .ok ⟨(destOf docs site a, c) :: st.files,
           prefixesUpTo ((destOf docs site a).dropLast) ++ st.dirs⟩ := by
  simp [copyOneE, fsOps, fsMkdirP, fsCopy2, mkdirParents, hne, hl]

theorem postBuild_nil {ε σ : Type} (ops : FsOps ε σ) (docs site : Path) (st : σ) :
    postBuildE ops docs site [] st = .ok st := rfl

theorem postBuild_cons_ok_elim {ε σ : Type} {ops : FsOps ε σ} {docs site : Path}
    {a : Path} {t : List Path} {st st' : σ}
    (h : postBuildE ops docs site (a :: t) st = .ok st') :
    ∃ st1, copyOneE ops docs site st a = .ok st1 ∧
      postBuildE ops docs site t st1 = .ok st' := by
  unfold postBuildE at h
  split at h
  · exact Except.noConfusion h
  next st1 heq => exact ⟨st1, heq, h⟩

theorem postBuild_cons_ok_intro {ε σ : Type} {ops : FsOps ε σ} {docs site : Path}
    {a : Path} (t : List Path) {st st1 : σ}
    (h : copyOneE ops docs site st a = .ok st1) :
    postBuildE ops docs site (a :: t) st = postBuildE ops docs site t st1 := by
  conv_lhs => unfold postBuildE
  rw [h]

theorem postBuild_cons_error_intro {ε σ : Type} {ops : FsOps ε σ} {docs site : Path}
    {a : Path} (t : List Path) {st : σ} {e : ε}
    (h : copyOneE ops docs site st a = .error e) :
    postBuildE ops docs site (a :: t) st = .error e := by
  unfold postBuildE
  rw [h]

theorem postBuild_error_elim {ε σ : Type} (ops : FsOps ε σ) (docs site : Path) :
    ∀ (l : List Path) (st : σ) (e : ε), postBuildE ops docs site l st = .error e →
      ∃ st2 p, p ∈ l ∧ copyOneE ops docs site st2 p = .error e := by
  intro l
  induction l with
  | nil => intro st e h; exact Except.noConfusion h
  | cons a t ih =>
    intro st e h
    unfold postBuildE at h
    split at h
    next e2 heq =>
      have h2 := Except.error.inj h
      exact ⟨st, a, List.mem_cons_self _ _, h2 ▸ heq⟩
    next st1 heq =>
      obtain ⟨st2, p, hp, h2⟩ := ih st1 e h
      exact ⟨st2, p, List.mem_cons_of_mem _ hp, h2⟩

theorem copyOne_error_elim {ε σ : Type} {ops : FsOps ε σ} {docs site : Path}
    {st : σ} {a : Path} {e : ε} (h : copyOneE ops docs site st a = .error e) :
    ops.mkdirP st ((destOf docs site a).dropLast) = .error e ∨
      ∃ st2, ops.mkdirP st ((destOf docs site a).dropLast) = .ok st2 ∧
        ops.copy2 st2 a (destOf docs site a) = .error e := by
  unfold copyOneE at h
  split at h
  next e2 heq =>
    have h2 := Except.error.inj h
    exact Or.inl (h2 ▸ heq)
  next st1 heq => exact Or.inr ⟨st1, heq, h⟩

/-! ### Behaviour of the concrete copy loop -/

theorem postBuild_frame (docs site : Path) :
    ∀ (l : List Path) (st st' : FSState) (q : Path),
      postBuildE fsOps docs site l st = .ok st' →
      (∀ p ∈ l, destOf docs site p ≠ q) →
      lookupP st'.files q = lookupP st.files q := by
  intro l
  induction l with
  | nil =>
    intro st st' q h _
    rw [postBuild_nil] at h
    cases Except.ok.inj h
    rfl
  | cons a t ih =>
    intro st st' q h hq
    obtain ⟨st1, hc, hrest⟩ := postBuild_cons_ok_elim h
    obtain ⟨c, _, _, hfiles, _⟩ := copyOne_ok_elim hc
    have h1 := ih st1 st' q hrest (fun p hp => hq p (List.mem_cons_of_mem _ hp))
    rw [h1, hfiles, lookupP_cons, if_neg (hq a (List.mem_cons_self _ _))]

theorem postBuild_ok (docs site : Path) (hds : ¬ isUnder docs site)
    (hsd : ¬ isUnder site docs) :
    ∀ (l : List Path) (st : FSState),
      (∀ p ∈ l, isUnder docs p ∧ lookupP st.files p ≠ none) →
      ∃ st', postBuildE fsOps docs site l st = .ok st' := by
  intro l
  induction l with
  | nil => intro st _; exact ⟨st, rfl⟩
  | cons a t ih =>
    intro st hsrc
    obtain ⟨ha, hla⟩ := hsrc a (List.mem_cons_self _ _)
    obtain ⟨c, hc⟩ := Option.ne_none_iff_exists'.mp hla
    have hne : a ≠ destOf docs site a := under_docs_ne_dest hds hsd ha a
    have hstep := copyOne_ok_intro hne hc
    have hsrc1 : ∀ p ∈ t, isUnder docs p ∧
        lookupP ((destOf docs site a, c) :: st.files) p ≠ none := by
      intro p hp
      obtain ⟨hup, hlp⟩ := hsrc p (List.mem_cons_of_mem _ hp)
      refine ⟨hup, ?_⟩
      rw [lookupP_cons, if_neg (Ne.symm (under_docs_ne_dest hds hsd hup a))]
      exact hlp
    obtain ⟨st', hpb⟩ :=
      ih ⟨(destOf docs site a, c) :: st.files,
          prefixesUpTo ((destOf docs site a).dropLast) ++ st.dirs⟩ hsrc1
    exact ⟨st', by rw [postBuild_cons_ok_intro t hstep]; exact hpb⟩

theorem postBuild_dest (docs site : Path) (hds : ¬ isUnder docs site)
    (hsd : ¬ isUnder site docs) :
    ∀ (l : List Path) (st st' : FSState),
      postBuildE fsOps docs site l st = .ok st' →
      (∀ r ∈ l, isUnder docs r) →
      ∀ p ∈ l, lookupP st'.files (destOf docs site p) = lookupP st.files p := by
  intro l
  induction l with
  | nil => intro st st' _ _ p hp; exact absurd hp (List.not_mem_nil p)
  | cons a t ih =>
    intro st st' h hdocs p hp
    obtain ⟨st1, hc, hrest⟩ := postBuild_cons_ok_elim h
    obtain ⟨c, hl, hne, hfiles, _⟩ := copyOne_ok_elim hc
    have hdocs_t : ∀ r ∈ t, isUnder docs r :=
      fun r hr => hdocs r (List.mem_cons_of_mem _ hr)
    have ha : isUnder docs a := hdocs a (List.mem_cons_self _ _)
    rcases List.mem_cons.mp hp with rfl | hpt
    · by_cases hat : p ∈ t
      · have h2 := ih st1 st' hrest hdocs_t p hat
        rw [h2, hfiles, lookupP_cons, if_neg (Ne.symm hne)]
      · have hne2 : ∀ r ∈ t, destOf docs site r ≠ destOf docs site p := by
          intro r hr he
          exact hat (destOf_inj (hdocs_t r hr) ha he ▸ hr)
        have hframe := postBuild_frame docs site t st1 st' (destOf docs site p) hrest hne2
        rw [hframe, hfiles, lookupP_cons, if_pos rfl]
        exact hl.symm
    · have h2 := ih st1 st' hrest hdocs_t p hpt
      rw [h2, hfiles, lookupP_cons,
        if_neg (Ne.symm (under_docs_ne_dest hds hsd (hdocs p hp) a))]

theorem postBuild_files_shape (docs site : Path) :
    ∀ (l : List Path) (st st' : FSState),
      postBuildE fsOps docs site l st = .ok st' →
      ∃ new, st'.files = new ++ st.files ∧
        ∀ e ∈ new, ∃ p ∈ l, e.1 = destOf docs site p := by
  intro l
  induction l with
  | nil =>
    intro st st' h
    rw [postBuild_nil] at h
    cases Except.ok.inj h
    exact ⟨[], rfl, by intro e he; exact absurd he (List.not_mem_nil e)⟩
  | cons a t ih =>
    intro st st' h
    obtain ⟨st1, hc, hrest⟩ := postBuild_cons_ok_elim h
    obtain ⟨c, _, _, hfiles, _⟩ := copyOne_ok_elim hc
    obtain ⟨new1, hshape, hnew1⟩ := ih st1 st' hrest
    refine ⟨new1 ++ [(destOf docs site a, c)], ?_, ?_⟩
    · rw [hshape, hfiles, List.append_cons]
    · intro e he
      rcases List.mem_append.mp he with h1 | h1
      · obtain ⟨p, hp, hdp⟩ := hnew1 e h1
        exact ⟨p, List.mem_cons_of_mem _ hp, hdp⟩
      · rcases List.mem_cons.mp h1 with rfl | h2
        · exact ⟨a, List.mem_cons_self _ _, rfl⟩
        · exact absurd h2 (List.not_mem_nil e)

theorem postBuild_dirs_mono (docs site : Path) :
    ∀ (l : List Path) (st st' : FSState),
      postBuildE fsOps docs site l st = .ok st' →
      ∀ d ∈ st.dirs, d ∈ st'.dirs := by
  intro l
  induction l with
  | nil =>
    intro st st' h d hd
    rw [postBuild_nil] at h
    cases Except.ok.inj h
    exact hd
  | cons a t ih =>
    intro st st' h d hd
    obtain ⟨st1, hc, hrest⟩ := postBuild_cons_ok_elim h
    obtain ⟨c, _, _, _, hdirs⟩ := copyOne_ok_elim hc
    refine ih st1 st' hrest d ?_
    rw [hdirs]
    exact List.mem_append.mpr (Or.inr hd)

theorem postBuild_dirs_new (docs site : Path) :
    ∀ (l : List Path) (st st' : FSState),
      postBuildE fsOps docs site l st = .ok st' →
      ∀ d ∈ st'.dirs, d ∈ st.dirs ∨
        ∃ p ∈ l, isUnder d ((destOf docs site p).dropLast) := by
  intro l
  induction l with
  | nil =>
    intro st st' h d hd
    rw [postBuild_nil] at h
    cases Except.ok.inj h
    exact Or.inl hd
  | cons a t ih =>
    intro st st' h d hd
    obtain ⟨st1, hc, hrest⟩ := postBuild_cons_ok_elim h
    obtain ⟨c, _, _, _, hdirs⟩ := copyOne_ok_elim hc
    rcases ih st1 st' hrest d hd with h1 | ⟨p, hp, hup⟩
    · rw [hdirs] at h1
      rcases List.mem_append.mp h1 with h2 | h2
      · exact Or.inr ⟨a, List.mem_cons_self _ _, mem_prefixesUpTo.mp h2⟩
      · exact Or.inl h2
    · exact Or.inr ⟨p, List.mem_cons_of_mem _ hp, hup⟩

theorem postBuild_dirs_made (docs site : Path) :
    ∀ (l : List Path) (st st' : FSState),
      postBuildE fsOps docs site l st = .ok st' →
      ∀ p ∈ l, ∀ d, isUnder d ((destOf docs site p).dropLast) → d ∈ st'.dirs := by
  intro l
  induction l with
  | nil => intro st st' _ p hp; exact absurd hp (List.not_mem_nil p)
  | cons a t ih =>
    intro st st' h p hp d hud
    obtain ⟨st1, hc, hrest⟩ := postBuild_cons_ok_elim h
    obtain ⟨c, _, _, _, hdirs⟩ := copyOne_ok_elim hc
    rcases List.mem_cons.mp hp with rfl | hpt
    · refine postBuild_dirs_mono docs site t st1 st' hrest d ?_
      rw [hdirs]
      exact List.mem_append.mpr (Or.inl (mem_prefixesUpTo.mpr hud))
    · exact ih st1 st' hrest p hpt d hud

/-! ### Lemmas about the `*.md` enumeration -/

theorem mem_mdFiles {st : FSState} {docs p : Path} :
    p ∈ mdFiles st docs ↔
      (∃ c, (p, c) ∈ st.files) ∧ isUnder docs p ∧ docs.length < p.length ∧
        isMd p = true := by
  unfold mdFiles
  rw [List.mem_filter, List.mem_map]
  constructor
  · rintro ⟨⟨e, he, rfl⟩, hcond⟩
    simp only [Bool.and_eq_true, decide_eq_true_eq] at hcond
    exact ⟨⟨e.2, he⟩, hcond.1.1, hcond.1.2, hcond.2⟩
  · rintro ⟨⟨c, hc⟩, h1, h2, h3⟩
    refine ⟨⟨(p, c), hc, rfl⟩, ?_⟩
    simp only [Bool.and_eq_true, decide_eq_true_eq]
    exact ⟨⟨h1, h2⟩, h3⟩

theorem mdFiles_under {st : FSState} {docs : Path} :
    ∀ p ∈ mdFiles st docs, isUnder docs p :=
  fun _ hp => (mem_mdFiles.mp hp).2.1

theorem mdFiles_lookup {st : FSState} {docs : Path} :
    ∀ p ∈ mdFiles st docs, lookupP st.files p ≠ none := by
  intro p hp
  obtain ⟨⟨c, hc⟩, _, _, _⟩ := mem_mdFiles.mp hp
  obtain ⟨v, hv⟩ := lookupP_isSome_of_mem hc
  rw [hv]
  exact Option.some_ne_none v

theorem mdFiles_preserved (docs site : Path) (hds : ¬ isUnder docs site)
    (hsd : ¬ isUnder site docs) {st st1 : FSState}
    (h : postBuildE fsOps docs site (mdFiles st docs) st = .ok st1) :
    mdFiles st1 docs = mdFiles st docs := by
  obtain ⟨new, hfiles, hnew⟩ := postBuild_files_shape docs site _ st st1 h
  unfold mdFiles
  rw [hfiles, List.map_append, List.filter_append]
  have hnil : List.filter
      (fun p => decide (isUnder docs p) && decide (docs.length < p.length) && isMd p)
      (new.map Prod.fst) = [] := by
    rw [List.filter_eq_nil_iff]
    intro k hk
    rw [List.mem_map] at hk
    obtain ⟨e, he, rfl⟩ := hk
    obtain ⟨p, _, hdest⟩ := hnew e he
    simp only [Bool.and_eq_true, decide_eq_true_eq, not_and]
    intro h1
    exact absurd (hdest ▸ isUnder_site_destOf docs site p : isUnder site e.1)
      (fun hs => (not_under_both hds hsd h1.1 hs).elim)
  rw [hnil, List.nil_append]

/-! ### Small facts used to discharge directory-closure side conditions -/

theorem under_nil {y : Path} (h : isUnder y []) : y = [] := by
  rw [isUnder] at h
  rw [List.take_nil] at h
  exact h.symm

theorem under_singleton {a : String} {y : Path} (h : isUnder y [a]) :
    y = [] ∨ y = [a] := by
  rcases y with _ | ⟨b, t⟩
  · exact Or.inl rfl
  · right
    rw [isUnder] at h
    rcases t with _ | ⟨c, t2⟩
    · rw [← h]
      rfl
    · exfalso
      have h2 := congrArg List.length h
      simp [List.length_take] at h2

/-! ### Claims about the copier -/

/-- C1 (amended: the two roots must be disjoint, neither a prefix of the
other): running the copier enumerates exactly the `*.md` documents
strictly under the source root, succeeds, and produces at the mirrored
path under the output root a byte-identical copy of each original
document, with every prefix of the destination's parent directory
existing afterwards. -/
theorem c1_copy_mirrors_sources (st : FSState) (docs site : Path)
    (hds : ¬ isUnder docs site) (hsd : ¬ isUnder site docs) :
    ∃ st', on_post_build docs site st = .ok st' ∧
      (∀ p, p ∈ mdFiles st docs ↔
        ((∃ c, (p, c) ∈ st.files) ∧ isUnder docs p ∧ docs.length < p.length ∧
          isMd p = true)) ∧
      (∀ p ∈ mdFiles st docs,
        lookupP st'.files (destOf docs site p) = lookupP st.files p) ∧
      (∀ p ∈ mdFiles st docs, ∀ d, isUnder d ((destOf docs site p).dropLast) →
        d ∈ st'.dirs) := by
  obtain ⟨st', hok⟩ := postBuild_ok docs site hds hsd (mdFiles st docs) st
    (fun p hp => ⟨mdFiles_under p hp, mdFiles_lookup p hp⟩)
  refine ⟨st', hok, fun p => mem_mdFiles, ?_, ?_⟩
  · exact postBuild_dest docs site hds hsd _ st st' hok mdFiles_under
  · exact postBuild_dirs_made docs site _ st st' hok

/-- Witness for C1 at the source tree of the claim: documents `a.md` and
`sub/b.md` under root `docs`, output root `site`. -/
theorem c1_copy_mirrors_sources_concrete :
    (¬ isUnder ["docs"] ["site"]) ∧ (¬ isUnder ["site"] ["docs"]) ∧
    Except.map
      (fun s => (lookupP s.files ["site", "a.md"], lookupP s.files ["site", "sub", "b.md"]))
      (on_post_build ["docs"] ["site"]
        ⟨[(["docs", "a.md"], [1]), (["docs", "sub", "b.md"], [2])], [[]]⟩) =
      Except.ok (some [1], some [2]) := by
  refine ⟨by decide, by decide, ?_⟩
  obtain ⟨st', hok, _, hdest, _⟩ :=
    c1_copy_mirrors_sources
      ⟨[(["docs", "a.md"], [1]), (["docs", "sub", "b.md"], [2])], [[]]⟩
      ["docs"] ["site"] (by decide) (by decide)
  rw [hok]
  have e1 : lookupP st'.files ["site", "a.md"] = some [1] := by
    have h1 := hdest ["docs", "a.md"] (by decide)
    rw [show destOf ["docs"] ["site"] ["docs", "a.md"] = ["site", "a.md"] from rfl] at h1
    rw [h1]
    decide
  have e2 : lookupP st'.files ["site", "sub", "b.md"] = some [2] := by
    have h1 := hdest ["docs", "sub", "b.md"] (by decide)
    rw [show destOf ["docs"] ["site"] ["docs", "sub", "b.md"] = ["site", "sub", "b.md"]
      from rfl] at h1
    rw [h1]
    decide
  simp [Except.map, e1, e2]

/-- C1 (counterexample): with the output root nested inside the source
root, the copy of `d/b.md` overwrites the source document `d/sub/b.md`
before the latter is read, so the copy produced at its mirrored path is
not byte-identical to the original document. -/
theorem c1_fails_when_site_inside_docs :
    ¬ (∀ st', on_post_build ["d"] ["d", "sub"]
          (⟨[(["d", "b.md"], [65]), (["d", "sub", "b.md"], [66])], []⟩ : FSState) =
            .ok st' →
        lookupP st'.files (destOf ["d"] ["d", "sub"] ["d", "sub", "b.md"]) =
          lookupP [(["d", "b.md"], [65]), (["d", "sub", "b.md"], [66])]
            ["d", "sub", "b.md"]) := by
  intro h
  exact absurd (h _ rfl) (by decide)

/-- C5 (amended: the two roots must be disjoint, neither a prefix of the
other): running the copier twice in succession is idempotent — after the
second run every file of the filesystem has the same content as after
the first run. -/
theorem c5_idempotent (st st1 st2 : FSState) (docs site : Path)
    (hds : ¬ isUnder docs site) (hsd : ¬ isUnder site docs)
    (h1 : on_post_build docs site st = .ok st1)
    (h2 : on_post_build docs site st1 = .ok st2) :
    ∀ q, lookupP st2.files q = lookupP st1.files q := by
  intro q
  have henum : mdFiles st1 docs = mdFiles st docs :=
    mdFiles_preserved docs site hds hsd h1
  have h2e : postBuildE fsOps docs site (mdFiles st docs) st1 = .ok st2 := by
    rw [← henum]
    exact h2
  by_cases hq : ∃ p ∈ mdFiles st docs, destOf docs site p = q
  · obtain ⟨p, hp, hdq⟩ := hq
    subst hdq
    have d2 : lookupP st2.files (destOf docs site p) = lookupP st1.files p :=
      postBuild_dest docs site hds hsd _ st1 st2 h2e mdFiles_under p hp
    have s1 : lookupP st1.files p = lookupP st.files p := by
      refine postBuild_frame docs site _ st st1 p h1 ?_
      intro r hr
      exact Ne.symm (under_docs_ne_dest hds hsd (mdFiles_under p hp) r)
    have d1 : lookupP st1.files (destOf docs site p) = lookupP st.files p :=
      postBuild_dest docs site hds hsd _ st st1 h1 mdFiles_under p hp
    rw [d2, s1, d1]
  · push_neg at hq
    exact postBuild_frame docs site _ st1 st2 q h2e hq

/-- Witness for C5: one document, disjoint roots, both runs evaluated
concretely. -/
theorem c5_idempotent_concrete :
    lookupP ((⟨[(["site", "a.md"], [1]), (["site", "a.md"], [1]), (["docs", "a.md"], [1])],
        [[], ["site"], [], ["site"], []]⟩ : FSState)).files ["site", "a.md"] =
      lookupP ((⟨[(["site", "a.md"], [1]), (["docs", "a.md"], [1])],
        [[], ["site"], []]⟩ : FSState)).files ["site", "a.md"] :=
  c5_idempotent ⟨[(["docs", "a.md"], [1])], [[]]⟩
    ⟨[(["site", "a.md"], [1]), (["docs", "a.md"], [1])], [[], ["site"], []]⟩
    ⟨[(["site", "a.md"], [1]), (["site", "a.md"], [1]), (["docs", "a.md"], [1])],
      [[], ["site"], [], ["site"], []]⟩
    ["docs"] ["site"] (by decide) (by decide) rfl rfl ["site", "a.md"]

/-- C5 (counterexample): with the output root nested inside the source
root, the first run creates new `*.md` files inside the source tree, and
the second run copies those as well, creating a file that did not exist
after the first run. -/
theorem c5_fails_when_site_inside_docs :
    ¬ (∀ st1 st2 : FSState,
        on_post_build ["d"] ["d", "s"]
            (⟨[(["d", "b.md"], [65])], []⟩ : FSState) = .ok st1 →
        on_post_build ["d"] ["d", "s"] st1 = .ok st2 →
        ∀ q, lookupP st2.files q = lookupP st1.files q) := by
  intro h
  exact absurd (h _ _ rfl rfl ["d", "s", "s", "b.md"]) (by decide)

/-- C6: path containment: when the output root exists and the recorded
directories are prefix-closed (as on a real filesystem), every file
whose content the copier changes lies under the output root, at the path
mirroring some enumerated source document, and every directory the
copier creates lies under the output root. -/
theorem c6_writes_confined (st st' : FSState) (docs site : Path)
    (hclosed : ∀ x ∈ st.dirs, ∀ y, isUnder y x → y ∈ st.dirs)
    (hsite : site ∈ st.dirs)
    (h : on_post_build docs site st = .ok st') :
    (∀ q, lookupP st'.files q ≠ lookupP st.files q →
      isUnder site q ∧ ∃ p ∈ mdFiles st docs, q = destOf docs site p) ∧
    (∀ d, d ∈ st'.dirs → d ∉ st.dirs → isUnder site d) := by
  constructor
  · intro q hq
    by_cases hex : ∃ p ∈ mdFiles st docs, destOf docs site p = q
    · obtain ⟨p, hp, hdq⟩ := hex
      exact ⟨hdq ▸ isUnder_site_destOf docs site p, p, hp, hdq.symm⟩
    · push_neg at hex
      exact absurd (postBuild_frame docs site _ st st' q h hex) hq
  · intro d hd hnd
    rcases postBuild_dirs_new docs site _ st st' h d hd with h1 | ⟨p, _, hup⟩
    · exact absurd h1 hnd
    · have hud : isUnder d (destOf docs site p) := under_of_under_dropLast hup
      rcases under_total hud (isUnder_site_destOf docs site p) with h2 | h2
      · exact absurd (hclosed site hsite d h2) hnd
      · exact h2

/-- Witness for C6: a single document copied from root `d` to root `s`;
the touched file path lies under `s` and mirrors the source. -/
theorem c6_writes_confined_concrete :
    isUnder ["s"] ["s", "a.md"] ∧
      ∃ p ∈ mdFiles (⟨[(["d", "a.md"], [7])], [[], ["s"]]⟩ : FSState) ["d"],
        ["s", "a.md"] = destOf ["d"] ["s"] p :=
  (c6_writes_confined ⟨[(["d", "a.md"], [7])], [[], ["s"]]⟩
    ⟨[(["s", "a.md"], [7]), (["d", "a.md"], [7])], [[], ["s"], [], ["s"]]⟩
    ["d"] ["s"]
    (by
      intro x hx y hy
      rcases List.mem_cons.mp hx with rfl | hx2
      · rw [under_nil hy]
        exact List.mem_cons_self _ _
      · rcases List.mem_cons.mp hx2 with rfl | hx3
        · rcases under_singleton hy with rfl | rfl
          · exact List.mem_cons_self _ _
          · exact List.mem_cons_of_mem _ (List.mem_cons_self _ _)
        · exact absurd hx3 (List.not_mem_nil x))
    (by decide) rfl).1
    ["s", "a.md"] (by decide)

/-- C7: the copier performs no error handling of its own: an error in a
primitive filesystem operation propagates unmodified through the copy
step and aborts the whole loop (no retry, no recovery, the remaining
files are not processed), a successful step continues with the next
file, and every error the loop returns is an error of some primitive
operation of some step. -/
theorem c7_error_propagation {ε σ : Type} (ops : FsOps ε σ) (docs site : Path) :
    (∀ (st : σ) (a : Path) (t : List Path) (e : ε),
        copyOneE ops docs site st a = .error e →
        postBuildE ops docs site (a :: t) st = .error e) ∧
    (∀ (st st1 : σ) (a : Path) (t : List Path),
        copyOneE ops docs site st a = .ok st1 →
        postBuildE ops docs site (a :: t) st = postBuildE ops docs site t st1) ∧
    (∀ (st : σ) (a : Path) (e : ε),
        copyOneE ops docs site st a = .error e →
        ops.mkdirP st ((destOf docs site a).dropLast) = .error e ∨
          ∃ st2, ops.mkdirP st ((destOf docs site a).dropLast) = .ok st2 ∧
            ops.copy2 st2 a (destOf docs site a) = .error e) ∧
    (∀ (l : List Path) (st : σ) (e : ε),
        postBuildE ops docs site l st = .error e →
        ∃ st2 p, p ∈ l ∧ copyOneE ops docs site st2 p = .error e) :=
  ⟨fun _ _ t _ h => postBuild_cons_error_intro t h,
   fun _ _ _ t h => postBuild_cons_ok_intro t h,
   fun _ _ _ h => copyOne_error_elim h,
   postBuild_error_elim ops docs site⟩

/-- Witness for C7: on the concrete filesystem, a missing source file
makes `copy2` fail, and the loop returns exactly that error, never
reaching the second file. -/
theorem c7_error_propagation_concrete :
    postBuildE fsOps ["d"] ["s"] [["d", "x.md"], ["d", "y.md"]] (⟨[], []⟩ : FSState) =
      .error (FsErr.fileNotFound ["d", "x.md"]) :=
  (c7_error_propagation fsOps ["d"] ["s"]).1 ⟨[], []⟩ ["d", "x.md"] [["d", "y.md"]]
    (FsErr.fileNotFound ["d", "x.md"]) rfl

/-- C9: the copier enumerates only files whose name ends in `.md`; file
content is unchanged at every path other than the mirrored destinations
of those files, and the directories afterwards are exactly the previous
ones plus prefixes of the parents of those destinations. -/
theorem c9_only_md_frame (st st' : FSState) (docs site : Path)
    (h : on_post_build docs site st = .ok st') :
    (∀ p ∈ mdFiles st docs, isMd p = true) ∧
    (∀ q, (∀ p ∈ mdFiles st docs, destOf docs site p ≠ q) →
      lookupP st'.files q = lookupP st.files q) ∧
    (∀ d, d ∈ st'.dirs ↔ (d ∈ st.dirs ∨
      ∃ p ∈ mdFiles st docs, isUnder d ((destOf docs site p).dropLast))) := by
  refine ⟨fun p hp => (mem_mdFiles.mp hp).2.2.2, ?_, ?_⟩
  · intro q hq
    exact postBuild_frame docs site _ st st' q h hq
  · intro d
    constructor
    · exact postBuild_dirs_new docs site _ st st' h d
    · rintro (h1 | ⟨p, hp, hup⟩)
      · exact postBuild_dirs_mono docs site _ st st' h d h1
      · exact postBuild_dirs_made docs site _ st st' h p hp d hup

/-- Witness for C9: a source tree with one `*.md` file and one `.txt`
file; the `.txt` file's mirrored path is untouched by the run. -/
theorem c9_only_md_frame_concrete :
    lookupP ((⟨[(["s", "a.md"], [1]), (["d", "a.md"], [1]), (["d", "n.txt"], [2])],
        [[], ["s"], []]⟩ : FSState)).files ["s", "n.txt"] =
      lookupP [(["d", "a.md"], [1]), (["d", "n.txt"], [2])] ["s", "n.txt"] :=
  ((c9_only_md_frame ⟨[(["d", "a.md"], [1]), (["d", "n.txt"], [2])], [[]]⟩
      ⟨[(["s", "a.md"], [1]), (["d", "a.md"], [1]), (["d", "n.txt"], [2])],
        [[], ["s"], []]⟩
      ["d"] ["s"] rfl).2.1) ["s", "n.txt"] (by decide)

end CopySourceMarkdown
